import Mathlib

/-!
Shallow embedding of the math-span detection and substitution pipeline of
`src/components/rendering/src/katex.rs` (function `render_katex` and its
helper `render_katex_aux`).

A document is a `List Char`.  The two scanning rule sets — the commented
patterns `inline_math_re` and `display_math_re` of the source — are embedded
as left-to-right scanning automata that reproduce the patterns' lookaround
conditions exactly (the spec's §9 notes this automaton form is behaviourally
identical to the pattern form).  Each pass decomposes the document into an
alternation of literal runs and matched spans (`Piece`); the assembler of
`render_katex_aux` then copies literal runs verbatim and replaces each
matched span by the markup returned by the external rendering engine.

The external engine (`katex::render_with_opts`) is outside this repository;
it is modelled as a parameter `r : Bool → List Char → Option (List Char)`
taking the display-mode flag and the formula text, returning the markup or
`none` for a formula error (the source unwraps, i.e. the pass fails).
-/

namespace KatexSpec

/-- The horizontal-whitespace class of the patterns (the class written
`\h`): tab, space, and the Unicode horizontal space characters. -/
def isHs (c : Char) : Bool :=
  c == '\t' || c == ' ' || c == Char.ofNat 0xA0 || c == Char.ofNat 0x1680 ||
  (0x2000 ≤ c.toNat && c.toNat ≤ 0x200A) ||
  c == Char.ofNat 0x202F || c == Char.ofNat 0x205F || c == Char.ofNat 0x3000

/-- The whitespace class of the patterns (the class written `\s`):
the horizontal class plus the vertical/line-break whitespace characters. -/
def isWs (c : Char) : Bool :=
  isHs c || c == '\n' || c == Char.ofNat 0x0B || c == Char.ofNat 0x0C ||
  c == '\r' || c == Char.ofNat 0x85 || c == Char.ofNat 0x2028 ||
  c == Char.ofNat 0x2029

/-- A body of formula lines whose first line carries a non-whitespace
character after its leading horizontal whitespace (what the block pattern's
opening lookahead inspects when the opening `$$` stands on its own line). -/
def firstLineOk (body : List Char) : Bool :=
  match body.dropWhile isHs with
  | c :: _ => !(isWs c)
  | [] => false

/-- A body of formula lines whose trailing whitespace run is horizontal
only, i.e. whose last line is not blank (what the block pattern's trailing
padding rule inspects before the closing `$$` on its own line). -/
def lastLineOk (body : List Char) : Bool :=
  (body.reverse.takeWhile isWs).all isHs

/-- One fragment of a pass's decomposition of the document: a literal run
copied verbatim, or a matched span.  A `math` piece records the whole
delimited region (`outer`, delimiters and any trimmed padding included) and
the formula text handed to the rendering engine (`inner`, capture group 1). -/
inductive Piece where
  | lit : List Char → Piece
  | math : (outer : List Char) → (inner : List Char) → Piece
deriving DecidableEq, Repr

/-- The decomposition of a document that contains no matched span. -/
def litOf : List Char → List Piece
  | [] => []
  | l => [Piece.lit l]

/-- Prepend one literal character to a decomposition, merging it into a
leading literal run when there is one. -/
def consLit (c : Char) : List Piece → List Piece
  | Piece.lit l :: ps => Piece.lit (c :: l) :: ps
  | ps => Piece.lit [c] :: ps

/-- Prepend a literal run to a decomposition. -/
def litApp (a : List Char) (ps : List Piece) : List Piece :=
  match a, ps with
  | [], ps => ps
  | a, Piece.lit l :: ps => Piece.lit (a ++ l) :: ps
  | a, ps => Piece.lit a :: ps

/-- Inline closing lookbehind: the character before the closing `$` must be
neither a backslash, nor whitespace, nor a marker. -/
def closePrevOk (lastc : Char) : Bool :=
  !(lastc == '\\') && !(isWs lastc) && !(lastc == '$')

/-- Inline closing lookahead: the character after the closing `$` (when
present) must be neither a digit nor a marker. -/
def closeNextOk : List Char → Bool
  | [] => true
  | d :: _ => !(d.isDigit) && !(d == '$')

/-- A valid first interior character of an inline span: neither whitespace
nor a marker. -/
def firstInnerOk (c : Char) : Bool :=
  !(isWs c) && !(c == '$')

/-- Inline pattern, closing part: scan the interior for the closing `$`.
`lastc` is the character before the scan position.  The interior may not
contain `$`, so failure of the closing conditions at the first `$` is final
for this opening. -/
def findClose (lastc : Char) : List Char → Option (List Char × List Char)
  | [] => none
  | c :: rest =>
    if c == '$' then
      if closePrevOk lastc && closeNextOk rest then some ([], rest) else none
    else
      Option.map (fun p => (c :: p.1, p.2)) (findClose c rest)

/-- Inline pattern, after the opening `$`: the first interior character must
be neither whitespace nor a marker, then `findClose` locates the closing
`$`.  Returns the capture (inner text) and the remainder after the match. -/
def tryInline : List Char → Option (List Char × List Char)
  | [] => none
  | c :: rest =>
    if firstInnerOk c then
      Option.map (fun p => (c :: p.1, p.2)) (findClose c rest)
    else none

/-- Inline opening lookbehind: the opening `$` is not preceded by a
backslash (escape) nor by another `$` (block delimiter). -/
def prevOkInline : Option Char → Bool
  | none => true
  | some c => !(c == '\\') && !(c == '$')

/-- Block opening lookbehind: the opening `$$` is not preceded by a
backslash.  (No condition on a preceding marker.) -/
def prevOkBlock : Option Char → Bool
  | none => true
  | some c => !(c == '\\')

/-- Split a text at its first `$`: returns the marker-free prefix and the
remainder after that `$`. -/
def splitAtDollar : List Char → Option (List Char × List Char)
  | [] => none
  | c :: rest =>
    if c == '$' then some ([], rest)
    else Option.map (fun p => (c :: p.1, p.2)) (splitAtDollar rest)

/-- A line (after the opening delimiter line's break) whose first non-blank
character exists and is neither whitespace nor a marker. -/
def lineStartOk (t : List Char) : Bool :=
  match t.dropWhile isHs with
  | c2 :: _ => !(isWs c2) && !(c2 == '$')
  | [] => false

/-- The second branch of the block opening lookahead: the rest of the
current line is horizontal whitespace only, then a line break, then a line
accepted by `lineStartOk`. -/
def blkLookaheadLine (u : List Char) : Bool :=
  match u.dropWhile isHs with
  | c :: t => c == '\n' && lineStartOk t
  | [] => false

/-- Block pattern, opening lookahead on the interior `u`: either the first
interior character is non-whitespace, or `blkLookaheadLine` accepts the
layout with the opening `$$` standing on its own line. -/
def blkLookahead (u : List Char) : Bool :=
  match u with
  | [] => false
  | c :: _ => !(isWs c) || blkLookaheadLine u

/-- A trailing whitespace run forming a single optionally blank-padded line
break: horizontal whitespace, one `\n`, horizontal whitespace. -/
def trailNL (w : List Char) : Bool :=
  match w.dropWhile isHs with
  | c :: b => c == '\n' && b.all isHs
  | [] => false

/-- Block pattern, trailing padding: the whitespace run between the trimmed
formula text and the closing `$$` must be empty or accepted by
`trailNL`. -/
def trailOk : List Char → Bool
  | [] => true
  | c :: w' => trailNL (c :: w')

/-- The interior with its trailing whitespace run removed: the capture of
the block pattern's group (`[^\$]*[^\s\$]`). -/
def rstripWs (u : List Char) : List Char :=
  (u.reverse.dropWhile isWs).reverse

/-- The trailing whitespace run of the interior: the text consumed by the
block pattern's optional padding between the capture and the closing
`$$`. -/
def wsTail (u : List Char) : List Char :=
  (u.reverse.takeWhile isWs).reverse

/-- Block pattern after the opening `$$`: locate the closing `$$` (the
interior may not contain `$`, and the first `$` found must be doubled),
check the opening lookahead, and trim the trailing padding from the capture.
Returns the untrimmed interior, the capture, and the remainder. -/
def tryBlock (s : List Char) : Option (List Char × List Char × List Char) :=
  match splitAtDollar s with
  | none => none
  | some (u, after) =>
    match after with
    | [] => none
    | c :: tail =>
      if c == '$' && blkLookahead u && trailOk (wsTail u) &&
          !((rstripWs u).isEmpty) then
        some (u, rstripWs u, tail)
      else none

/-- Inline scanning automaton.  `fuel` bounds the recursion and is kept at
least the text length (the wrapper `scanInline` supplies exactly the
length); `prev` is the character preceding the scan position.  At each
unescaped candidate opening `$` the automaton attempts a span; on failure it
advances one character, as the pattern engine retries at the next offset. -/
def scanInlineGo : Nat → Option Char → List Char → List Piece
  | 0, _, s => litOf s
  | _ + 1, _, [] => []
  | fuel + 1, prev, c :: rest =>
    if c == '$' && prevOkInline prev then
      match tryInline rest with
      | some (inner, rest2) =>
        Piece.math ('$' :: (inner ++ ['$'])) inner :: scanInlineGo fuel (some '$') rest2
      | none => consLit c (scanInlineGo fuel (some c) rest)
    else consLit c (scanInlineGo fuel (some c) rest)

/-- Block pattern after the opening `$`: the next character must be the
second `$` of the opening double marker, then `tryBlock` takes over. -/
def tryBlockOpen : List Char → Option (List Char × List Char × List Char)
  | [] => none
  | c :: rest => if c == '$' then tryBlock rest else none

/-- Block scanning automaton; same stepping scheme as `scanInlineGo` with
the double-marker rules. -/
def scanBlockGo : Nat → Option Char → List Char → List Piece
  | 0, _, s => litOf s
  | _ + 1, _, [] => []
  | fuel + 1, prev, c :: rest =>
    if c == '$' && prevOkBlock prev then
      match tryBlockOpen rest with
      | some (u, v, tail) =>
        Piece.math ('$' :: '$' :: (u ++ ['$', '$'])) v :: scanBlockGo fuel (some '$') tail
      | none => consLit c (scanBlockGo fuel (some c) rest)
    else consLit c (scanBlockGo fuel (some c) rest)

/-- One inline scanning pass: the decomposition produced by the pattern
`inline_math_re` over a whole document. -/
def scanInline (prev : Option Char) (s : List Char) : List Piece :=
  scanInlineGo s.length prev s

/-- One block scanning pass: the decomposition produced by the pattern
`display_math_re` over a whole document. -/
def scanBlock (prev : Option Char) (s : List Char) : List Piece :=
  scanBlockGo s.length prev s

/-- The pattern `inline_math_re` of `render_katex`, as a scanner over the
whole document. -/
def inline_math_re (s : List Char) : List Piece :=
  scanInline none s

/-- The pattern `display_math_re` of `render_katex`, as a scanner over the
whole document. -/
def display_math_re (s : List Char) : List Piece :=
  scanBlock none s

/-- The substitution loop of `render_katex_aux`: copy literal runs verbatim;
for each matched span call the rendering engine on the formula text and
splice in the markup; fail (the source's `unwrap` panics) when the engine
fails on any span. -/
def assemble (r : List Char → Option (List Char)) : List Piece → Option (List Char)
  | [] => some []
  | Piece.lit l :: ps => Option.map (fun t => l ++ t) (assemble r ps)
  | Piece.math _ m :: ps =>
    match r m with
    | none => none
    | some h => Option.map (fun t => h ++ t) (assemble r ps)

/-- `render_katex_aux` of the source: one scan-and-substitute pass, given
the scanner (`rex`), the display-mode flag, the rendering engine `r`, and
the document. -/
def render_katex_aux (rex : List Char → List Piece) (display : Bool)
    (r : Bool → List Char → Option (List Char)) (content : List Char) :
    Option (List Char) :=
  assemble (r display) (rex content)

/-- `render_katex` of the source: the inline pass over the original text,
then the block pass over its output. -/
def render_katex (r : Bool → List Char → Option (List Char))
    (content : List Char) : Option (List Char) :=
  match render_katex_aux inline_math_re false r content with
  | none => none
  | some inline => render_katex_aux display_math_re true r inline

/-- The text a decomposition stands for: literal runs and whole delimited
regions, concatenated.  A correct scan satisfies `flat (scan s) = s`. -/
def flat : List Piece → List Char
  | [] => []
  | Piece.lit l :: ps => l ++ flat ps
  | Piece.math o _ :: ps => o ++ flat ps

/-- The character preceding the continuation after walking over `a`. -/
def lastPrev (prev : Option Char) : List Char → Option Char
  | [] => prev
  | c :: a => lastPrev (some c) a

/-- The first stage of the pipeline, named as the spec names it: one
scan-and-substitute pass with the single-marker (inline) configuration. -/
def inlinePass (r : Bool → List Char → Option (List Char))
    (d : List Char) : Option (List Char) :=
  assemble (r false) (scanInline none d)

/-- The second stage of the pipeline: one scan-and-substitute pass with the
double-marker (block) configuration. -/
def blockPass (r : Bool → List Char → Option (List Char))
    (d : List Char) : Option (List Char) :=
  assemble (r true) (scanBlock none d)

/-! ### Decomposition of a successful match -/

theorem findClose_decomp (lc : Char) (l i r : List Char)
    (h : findClose lc l = some (i, r)) : l = i ++ '$' :: r := by
  induction l generalizing lc i with
  | nil => simp [findClose] at h
  | cons c rest ih =>
    rw [findClose] at h
    by_cases hc : (c == '$') = true
    · rw [if_pos hc] at h
      by_cases hcd : (closePrevOk lc && closeNextOk rest) = true
      · rw [if_pos hcd] at h
        simp only [Option.some.injEq, Prod.mk.injEq] at h
        obtain ⟨hi, hr⟩ := h
        subst hi hr
        simp only [beq_iff_eq] at hc
        subst hc
        simp
      · rw [if_neg hcd] at h
        exact absurd h (by simp)
    · rw [if_neg hc] at h
      cases hfc : findClose c rest with
      | none => rw [hfc] at h; simp at h
      | some p =>
        rw [hfc] at h
        simp only [Option.map_some', Option.some.injEq, Prod.mk.injEq] at h
        obtain ⟨hi, hr⟩ := h
        subst hr
        have := ih c p.1 hfc
        rw [← hi, this]
        simp

theorem tryInline_decomp (l i r : List Char)
    (h : tryInline l = some (i, r)) : l = i ++ '$' :: r ∧ i ≠ [] := by
  cases l with
  | nil => simp [tryInline] at h
  | cons c rest =>
    rw [tryInline] at h
    by_cases hf : firstInnerOk c = true
    · rw [if_pos hf] at h
      cases hfc : findClose c rest with
      | none => rw [hfc] at h; simp at h
      | some p =>
        rw [hfc] at h
        simp only [Option.map_some', Option.some.injEq, Prod.mk.injEq] at h
        obtain ⟨hi, hr⟩ := h
        constructor
        · rw [← hi, ← hr]
          have hfd := findClose_decomp c rest p.1 p.2 hfc
          rw [hfd]
          simp
        · rw [← hi]; simp
    · rw [if_neg hf] at h
      exact absurd h (by simp)

theorem tryInline_length (l i r : List Char)
    (h : tryInline l = some (i, r)) : r.length < l.length := by
  obtain ⟨hd, _⟩ := tryInline_decomp l i r h
  rw [hd]
  simp only [List.length_append, List.length_cons]
  omega

theorem splitAtDollar_decomp (l u r : List Char)
    (h : splitAtDollar l = some (u, r)) : l = u ++ '$' :: r ∧ '$' ∉ u := by
  induction l generalizing u with
  | nil => simp [splitAtDollar] at h
  | cons c rest ih =>
    rw [splitAtDollar] at h
    by_cases hc : (c == '$') = true
    · rw [if_pos hc] at h
      simp only [Option.some.injEq, Prod.mk.injEq] at h
      obtain ⟨hu, hr⟩ := h
      subst hu hr
      simp only [beq_iff_eq] at hc
      subst hc
      simp
    · rw [if_neg hc] at h
      cases hs : splitAtDollar rest with
      | none => rw [hs] at h; simp at h
      | some p =>
        rw [hs] at h
        simp only [Option.map_some', Option.some.injEq, Prod.mk.injEq] at h
        obtain ⟨hu, hr⟩ := h
        subst hr
        obtain ⟨hrest, hnot⟩ := ih p.1 hs
        constructor
        · rw [← hu, hrest]; simp
        · rw [← hu]
          intro hmem
          rcases List.mem_cons.mp hmem with hh | ht
          · exact absurd (beq_iff_eq.mpr hh.symm) (by simpa using hc)
          · exact hnot ht

theorem tryBlock_decomp (s u v t : List Char)
    (h : tryBlock s = some (u, v, t)) :
    s = u ++ '$' :: '$' :: t ∧ '$' ∉ u ∧ v = rstripWs u := by
  unfold tryBlock at h
  split at h
  · exact absurd h (by simp)
  · rename_i u1 after1 hs
    split at h
    · exact absurd h (by simp)
    · rename_i c tail
      split at h
      · rename_i hcond
        simp only [Bool.and_eq_true, beq_iff_eq] at hcond
        have hc : c = '$' := hcond.1.1.1
        simp only [Option.some.injEq, Prod.mk.injEq] at h
        obtain ⟨hu, hv, ht⟩ := h
        obtain ⟨hdec, hnot⟩ := splitAtDollar_decomp s u1 _ hs
        subst hu
        refine ⟨?_, hnot, hv.symm⟩
        rw [hdec, ht, hc]
      · exact absurd h (by simp)

theorem tryBlock_length (s u v t : List Char)
    (h : tryBlock s = some (u, v, t)) : t.length < s.length := by
  obtain ⟨hd, _, _⟩ := tryBlock_decomp s u v t h
  rw [hd]
  simp only [List.length_append, List.length_cons]
  omega

theorem tryBlockOpen_decomp (s u v t : List Char)
    (h : tryBlockOpen s = some (u, v, t)) :
    s = '$' :: u ++ '$' :: '$' :: t ∧ '$' ∉ u ∧ v = rstripWs u := by
  cases s with
  | nil => simp [tryBlockOpen] at h
  | cons c rest =>
    rw [tryBlockOpen] at h
    by_cases hc : (c == '$') = true
    · rw [if_pos hc] at h
      obtain ⟨hd, hnot, hv⟩ := tryBlock_decomp rest u v t h
      simp only [beq_iff_eq] at hc
      subst hc
      exact ⟨by rw [hd]; rfl, hnot, hv⟩
    · rw [if_neg hc] at h
      exact absurd h (by simp)

theorem tryBlockOpen_length (s u v t : List Char)
    (h : tryBlockOpen s = some (u, v, t)) : t.length < s.length := by
  obtain ⟨hd, _, _⟩ := tryBlockOpen_decomp s u v t h
  rw [hd]
  simp only [List.cons_append, List.length_append, List.length_cons]
  omega

/-! ### The scanning automata do not depend on the fuel bound -/

theorem scanInlineGo_congr :
    ∀ f g : Nat, ∀ prev : Option Char, ∀ s : List Char,
      s.length ≤ f → s.length ≤ g →
      scanInlineGo f prev s = scanInlineGo g prev s := by
  intro f
  induction f with
  | zero =>
    intro g prev s hf _
    have : s = [] := List.length_eq_zero.mp (Nat.le_zero.mp hf)
    subst this
    cases g <;> simp [scanInlineGo, litOf]
  | succ f ih =>
    intro g prev s hf hg
    cases g with
    | zero =>
      have : s = [] := List.length_eq_zero.mp (Nat.le_zero.mp hg)
      subst this
      simp [scanInlineGo, litOf]
    | succ g =>
      cases s with
      | nil => simp [scanInlineGo]
      | cons c rest =>
        have hrest : rest.length ≤ f := by
          simp only [List.length_cons] at hf; omega
        have hrest' : rest.length ≤ g := by
          simp only [List.length_cons] at hg; omega
        rw [scanInlineGo, scanInlineGo]
        by_cases hcond : (c == '$' && prevOkInline prev) = true
        · rw [if_pos hcond, if_pos hcond]
          cases ht : tryInline rest with
          | none => rw [ih g (some c) rest hrest hrest']
          | some p =>
            obtain ⟨i1, r1⟩ := p
            have hlen : r1.length < rest.length :=
              tryInline_length rest i1 r1 ht
            dsimp only
            rw [ih g (some '$') r1 (by omega) (by omega)]
        · rw [if_neg hcond, if_neg hcond]
          rw [ih g (some c) rest hrest hrest']

theorem scanBlockGo_congr :
    ∀ f g : Nat, ∀ prev : Option Char, ∀ s : List Char,
      s.length ≤ f → s.length ≤ g →
      scanBlockGo f prev s = scanBlockGo g prev s := by
  intro f
  induction f with
  | zero =>
    intro g prev s hf _
    have : s = [] := List.length_eq_zero.mp (Nat.le_zero.mp hf)
    subst this
    cases g <;> simp [scanBlockGo, litOf]
  | succ f ih =>
    intro g prev s hf hg
    cases g with
    | zero =>
      have : s = [] := List.length_eq_zero.mp (Nat.le_zero.mp hg)
      subst this
      simp [scanBlockGo, litOf]
    | succ g =>
      cases s with
      | nil => simp [scanBlockGo]
      | cons c rest =>
        have hrest : rest.length ≤ f := by
          simp only [List.length_cons] at hf; omega
        have hrest' : rest.length ≤ g := by
          simp only [List.length_cons] at hg; omega
        rw [scanBlockGo, scanBlockGo]
        by_cases hcond : (c == '$' && prevOkBlock prev) = true
        · rw [if_pos hcond, if_pos hcond]
          cases ht : tryBlockOpen rest with
          | none => rw [ih g (some c) rest hrest hrest']
          | some p =>
            obtain ⟨u1, v1, t1⟩ := p
            have hlen : t1.length < rest.length :=
              tryBlockOpen_length rest u1 v1 t1 ht
            dsimp only
            rw [ih g (some '$') t1 (by omega) (by omega)]
        · rw [if_neg hcond, if_neg hcond]
          rw [ih g (some c) rest hrest hrest']

/-! ### Unfolding the scanners one step at a time -/

theorem scanInline_nil (prev : Option Char) : scanInline prev [] = [] := rfl

theorem scanInline_cons_lit (prev : Option Char) (c : Char) (s : List Char)
    (h : (c == '$' && prevOkInline prev) = false) :
    scanInline prev (c :: s) = consLit c (scanInline (some c) s) := by
  rw [scanInline, scanInline, List.length_cons, scanInlineGo,
    if_neg (by simp [h])]

theorem scanInline_cons_fail (prev : Option Char) (s : List Char)
    (hp : prevOkInline prev = true) (ht : tryInline s = none) :
    scanInline prev ('$' :: s) = consLit '$' (scanInline (some '$') s) := by
  rw [scanInline, scanInline, List.length_cons, scanInlineGo,
    if_pos (by simp [hp]), ht]

theorem scanInline_cons_match (prev : Option Char) (s i r : List Char)
    (hp : prevOkInline prev = true) (ht : tryInline s = some (i, r)) :
    scanInline prev ('$' :: s) =
      Piece.math ('$' :: (i ++ ['$'])) i :: scanInline (some '$') r := by
  rw [scanInline, List.length_cons, scanInlineGo, if_pos (by simp [hp]), ht]
  dsimp only
  rw [scanInline]
  rw [scanInlineGo_congr s.length r.length (some '$') r
    (le_of_lt (tryInline_length s i r ht)) le_rfl]

theorem scanBlock_nil (prev : Option Char) : scanBlock prev [] = [] := rfl

theorem scanBlock_cons_lit (prev : Option Char) (c : Char) (s : List Char)
    (h : (c == '$' && prevOkBlock prev) = false) :
    scanBlock prev (c :: s) = consLit c (scanBlock (some c) s) := by
  rw [scanBlock, scanBlock, List.length_cons, scanBlockGo,
    if_neg (by simp [h])]

theorem scanBlock_cons_fail (prev : Option Char) (s : List Char)
    (hp : prevOkBlock prev = true) (ht : tryBlockOpen s = none) :
    scanBlock prev ('$' :: s) = consLit '$' (scanBlock (some '$') s) := by
  rw [scanBlock, scanBlock, List.length_cons, scanBlockGo,
    if_pos (by simp [hp]), ht]

theorem scanBlock_cons_match (prev : Option Char) (s u v t : List Char)
    (hp : prevOkBlock prev = true) (ht : tryBlockOpen s = some (u, v, t)) :
    scanBlock prev ('$' :: s) =
      Piece.math ('$' :: '$' :: (u ++ ['$', '$'])) v :: scanBlock (some '$') t := by
  rw [scanBlock, List.length_cons, scanBlockGo, if_pos (by simp [hp]), ht]
  dsimp only
  rw [scanBlock]
  rw [scanBlockGo_congr s.length t.length (some '$') t
    (le_of_lt (tryBlockOpen_length s u v t ht)) le_rfl]

/-! ### Algebra of literal runs -/

theorem consLit_eq_litApp (c : Char) (ps : List Piece) :
    consLit c ps = litApp [c] ps := by
  cases ps with
  | nil => rfl
  | cons p t => cases p <;> rfl

theorem litApp_nil_left (ps : List Piece) : litApp [] ps = ps := by
  cases ps with
  | nil => rfl
  | cons p t => cases p <;> rfl

theorem litApp_nil_right (a : List Char) : litApp a [] = litOf a := by
  cases a <;> rfl

theorem litApp_cons (c : Char) (a : List Char) (ps : List Piece) :
    consLit c (litApp a ps) = litApp (c :: a) ps := by
  cases a with
  | nil => rw [litApp_nil_left, consLit_eq_litApp]
  | cons a0 a' =>
    cases ps with
    | nil => rfl
    | cons p t => cases p <;> rfl

theorem flat_litOf (l : List Char) : flat (litOf l) = l := by
  cases l with
  | nil => rfl
  | cons c t => simp [litOf, flat]

theorem flat_litApp (a : List Char) (ps : List Piece) :
    flat (litApp a ps) = a ++ flat ps := by
  cases a with
  | nil => rw [litApp_nil_left]; rfl
  | cons a0 a' =>
    cases ps with
    | nil => simp [litApp, flat, flat_litOf]
    | cons p t => cases p <;> simp [litApp, flat]

theorem flat_consLit (c : Char) (ps : List Piece) :
    flat (consLit c ps) = c :: flat ps := by
  rw [consLit_eq_litApp, flat_litApp]
  rfl

/-! ### Assembler lemmas -/

theorem assemble_litOf (r : List Char → Option (List Char)) (l : List Char) :
    assemble r (litOf l) = some l := by
  cases l with
  | nil => rfl
  | cons c t => simp [litOf, assemble]

theorem assemble_litApp (r : List Char → Option (List Char)) (a : List Char)
    (ps : List Piece) :
    assemble r (litApp a ps) = Option.map (fun t => a ++ t) (assemble r ps) := by
  cases a with
  | nil =>
    rw [litApp_nil_left]
    cases assemble r ps <;> simp
  | cons a0 a' =>
    cases ps with
    | nil => simp [litApp, assemble, litOf]
    | cons p t =>
      cases p with
      | lit l =>
        simp only [litApp, assemble]
        cases assemble r t <;> simp
      | math o m =>
        simp only [litApp, assemble]

theorem assemble_consLit (r : List Char → Option (List Char)) (c : Char)
    (ps : List Piece) :
    assemble r (consLit c ps) = Option.map (fun t => c :: t) (assemble r ps) := by
  rw [consLit_eq_litApp, assemble_litApp]
  cases assemble r ps <;> simp

theorem assemble_eq_none_iff (r : List Char → Option (List Char))
    (ps : List Piece) :
    assemble r ps = none ↔ ∃ o m, Piece.math o m ∈ ps ∧ r m = none := by
  induction ps with
  | nil => simp [assemble]
  | cons p t ih =>
    cases p with
    | lit l =>
      simp only [assemble, Option.map_eq_none', ih]
      constructor
      · rintro ⟨o, m, hm, hr⟩; exact ⟨o, m, List.mem_cons_of_mem _ hm, hr⟩
      · rintro ⟨o, m, hm, hr⟩
        rcases List.mem_cons.mp hm with hh | hh
        · exact absurd hh (by simp)
        · exact ⟨o, m, hh, hr⟩
    | math o m =>
      simp only [assemble]
      cases hr : r m with
      | none =>
        simp only [true_iff]
        exact ⟨o, m, List.mem_cons_self _ _, hr⟩
      | some h =>
        simp only [Option.map_eq_none', ih]
        constructor
        · rintro ⟨o', m', hm, hr'⟩; exact ⟨o', m', List.mem_cons_of_mem _ hm, hr'⟩
        · rintro ⟨o', m', hm, hr'⟩
          rcases List.mem_cons.mp hm with hh | hh
          · obtain ⟨ho, hmm⟩ := Piece.math.injEq .. ▸ hh
            subst hmm
            rw [hr] at hr'
            exact absurd hr' (by simp)
          · exact ⟨o', m', hh, hr'⟩

/-! ### Every scanning pass decomposes the document exactly -/

theorem flat_scanInline_bounded :
    ∀ n : Nat, ∀ prev : Option Char, ∀ s : List Char, s.length ≤ n →
      flat (scanInline prev s) = s := by
  intro n
  induction n with
  | zero =>
    intro prev s hs
    have : s = [] := List.length_eq_zero.mp (Nat.le_zero.mp hs)
    subst this
    rfl
  | succ n ih =>
    intro prev s hs
    cases s with
    | nil => rfl
    | cons c rest =>
      simp only [List.length_cons, Nat.succ_le_succ_iff] at hs
      by_cases hcond : (c == '$' && prevOkInline prev) = true
      · obtain ⟨hc, hp⟩ := Bool.and_eq_true .. ▸ hcond
        have hc' : c = '$' := beq_iff_eq.mp hc
        subst hc'
        cases ht : tryInline rest with
        | none =>
          rw [scanInline_cons_fail prev rest hp ht, flat_consLit,
            ih (some '$') rest hs]
        | some p =>
          obtain ⟨i, r⟩ := p
          rw [scanInline_cons_match prev rest i r hp ht, flat]
          have hlen : r.length ≤ n :=
            Nat.le_trans (Nat.le_of_lt_succ
              (Nat.lt_of_lt_of_le (tryInline_length rest i r ht)
                (Nat.lt_succ_of_le hs).le)) le_rfl
          rw [ih (some '$') r (by
            have := tryInline_length rest i r ht
            omega)]
          obtain ⟨hdec, _⟩ := tryInline_decomp rest i r ht
          rw [hdec]
          simp
      · rw [scanInline_cons_lit prev c rest (Bool.not_eq_true _ ▸ hcond),
          flat_consLit, ih (some c) rest hs]

theorem flat_scanInline (prev : Option Char) (s : List Char) :
    flat (scanInline prev s) = s :=
  flat_scanInline_bounded s.length prev s le_rfl

theorem flat_scanBlock_bounded :
    ∀ n : Nat, ∀ prev : Option Char, ∀ s : List Char, s.length ≤ n →
      flat (scanBlock prev s) = s := by
  intro n
  induction n with
  | zero =>
    intro prev s hs
    have : s = [] := List.length_eq_zero.mp (Nat.le_zero.mp hs)
    subst this
    rfl
  | succ n ih =>
    intro prev s hs
    cases s with
    | nil => rfl
    | cons c rest =>
      simp only [List.length_cons, Nat.succ_le_succ_iff] at hs
      by_cases hcond : (c == '$' && prevOkBlock prev) = true
      · obtain ⟨hc, hp⟩ := Bool.and_eq_true .. ▸ hcond
        have hc' : c = '$' := beq_iff_eq.mp hc
        subst hc'
        cases ht : tryBlockOpen rest with
        | none =>
          rw [scanBlock_cons_fail prev rest hp ht, flat_consLit,
            ih (some '$') rest hs]
        | some p =>
          obtain ⟨u, v, t⟩ := p
          rw [scanBlock_cons_match prev rest u v t hp ht, flat]
          rw [ih (some '$') t (by
            have := tryBlockOpen_length rest u v t ht
            omega)]
          obtain ⟨hdec, _, _⟩ := tryBlockOpen_decomp rest u v t ht
          rw [hdec]
          simp
      · rw [scanBlock_cons_lit prev c rest (Bool.not_eq_true _ ▸ hcond),
          flat_consLit, ih (some c) rest hs]

theorem flat_scanBlock (prev : Option Char) (s : List Char) :
    flat (scanBlock prev s) = s :=
  flat_scanBlock_bounded s.length prev s le_rfl

/-! ### Scanning a marker-free stretch of text -/

theorem scanInline_append_nodollar (a : List Char) :
    ∀ prev : Option Char, ∀ s : List Char, '$' ∉ a →
      scanInline prev (a ++ s) = litApp a (scanInline (lastPrev prev a) s) := by
  induction a with
  | nil =>
    intro prev s _
    rw [List.nil_append, litApp_nil_left]
    rfl
  | cons c a' ih =>
    intro prev s hnot
    have hc : ¬(c = '$') := fun hh => hnot (hh ▸ List.mem_cons_self _ _)
    have hna : '$' ∉ a' := fun hh => hnot (List.mem_cons_of_mem _ hh)
    rw [List.cons_append,
      scanInline_cons_lit prev c (a' ++ s) (by simp [hc]),
      ih (some c) s hna, litApp_cons]
    rfl

theorem scanBlock_append_nodollar (a : List Char) :
    ∀ prev : Option Char, ∀ s : List Char, '$' ∉ a →
      scanBlock prev (a ++ s) = litApp a (scanBlock (lastPrev prev a) s) := by
  induction a with
  | nil =>
    intro prev s _
    rw [List.nil_append, litApp_nil_left]
    rfl
  | cons c a' ih =>
    intro prev s hnot
    have hc : ¬(c = '$') := fun hh => hnot (hh ▸ List.mem_cons_self _ _)
    have hna : '$' ∉ a' := fun hh => hnot (List.mem_cons_of_mem _ hh)
    rw [List.cons_append,
      scanBlock_cons_lit prev c (a' ++ s) (by simp [hc]),
      ih (some c) s hna, litApp_cons]
    rfl

theorem scanInline_nodollar (prev : Option Char) (s : List Char)
    (h : '$' ∉ s) : scanInline prev s = litOf s := by
  have := scanInline_append_nodollar s prev [] h
  rw [List.append_nil] at this
  rw [this, scanInline_nil, litApp_nil_right]

theorem scanBlock_nodollar (prev : Option Char) (s : List Char)
    (h : '$' ∉ s) : scanBlock prev s = litOf s := by
  have := scanBlock_append_nodollar s prev [] h
  rw [List.append_nil] at this
  rw [this, scanBlock_nil, litApp_nil_right]

/-! ### Generic list facts used by the block-span analysis -/

theorem dropWhile_append_all {p : Char → Bool} (a x : List Char)
    (h : a.all p = true) : (a ++ x).dropWhile p = x.dropWhile p := by
  induction a with
  | nil => rfl
  | cons c a' ih =>
    simp only [List.all_cons, Bool.and_eq_true] at h
    simp [List.dropWhile_cons, h.1, ih h.2]

theorem dropWhile_append_pos {p : Char → Bool} (a x : List Char)
    (h : a.dropWhile p ≠ []) :
    (a ++ x).dropWhile p = a.dropWhile p ++ x := by
  induction a with
  | nil => exact absurd rfl h
  | cons c a' ih =>
    by_cases hc : p c = true
    · rw [List.dropWhile_cons_of_pos hc] at h
      simp [List.dropWhile_cons, hc, ih h]
    · simp only [Bool.not_eq_true] at hc
      simp [List.dropWhile_cons, hc]

theorem takeWhile_append_all {p : Char → Bool} (a x : List Char)
    (h : a.all p = true) : (a ++ x).takeWhile p = a ++ x.takeWhile p := by
  induction a with
  | nil => rfl
  | cons c a' ih =>
    simp only [List.all_cons, Bool.and_eq_true] at h
    simp [List.takeWhile_cons, h.1, ih h.2]

theorem takeWhile_append_pos {p : Char → Bool} (a x : List Char)
    (h : a.dropWhile p ≠ []) :
    (a ++ x).takeWhile p = a.takeWhile p := by
  induction a with
  | nil => exact absurd rfl h
  | cons c a' ih =>
    by_cases hc : p c = true
    · rw [List.dropWhile_cons_of_pos hc] at h
      simp [List.takeWhile_cons, hc, ih h]
    · simp only [Bool.not_eq_true] at hc
      simp [List.takeWhile_cons, hc]

theorem dropWhile_nil_all {p : Char → Bool} (a : List Char)
    (h : a.dropWhile p = []) : a.all p = true := by
  induction a with
  | nil => rfl
  | cons c a' ih =>
    by_cases hc : p c = true
    · rw [List.dropWhile_cons_of_pos hc] at h
      simp [hc, ih h]
    · rw [List.dropWhile_cons_of_neg (by simpa using hc)] at h
      exact absurd h (by simp)

theorem lastPrev_append (prev : Option Char) (a b : List Char) :
    lastPrev prev (a ++ b) = lastPrev (lastPrev prev a) b := by
  induction a generalizing prev with
  | nil => rfl
  | cons c a' ih => simp [lastPrev, ih]

theorem lastPrev_spec (a : List Char) :
    ∀ prev : Option Char,
      lastPrev prev a = prev ∨ ∃ c, c ∈ a ∧ lastPrev prev a = some c := by
  induction a with
  | nil => intro prev; left; rfl
  | cons c a' ih =>
    intro prev
    rcases ih (some c) with h | ⟨c', hc', h⟩
    · right
      exact ⟨c, List.mem_cons_self _ _, by rw [lastPrev, h]⟩
    · right
      exact ⟨c', List.mem_cons_of_mem _ hc', by rw [lastPrev, h]⟩

/-! ### Character-class facts -/

theorem hs_imp_ws (c : Char) (h : isHs c = true) : isWs c = true := by
  rw [isWs, h]
  rfl

theorem hs_ne_dollar (c : Char) (h : isHs c = true) : c ≠ '$' := by
  intro heq
  rw [heq] at h
  exact absurd h (by decide)

theorem hs_ne_backslash (c : Char) (h : isHs c = true) : c ≠ '\\' := by
  intro heq
  rw [heq] at h
  exact absurd h (by decide)

theorem all_hs_no_dollar (a : List Char) (h : a.all isHs = true) :
    '$' ∉ a := by
  intro hmem
  exact hs_ne_dollar '$' (List.all_eq_true.mp h _ hmem) rfl

theorem all_hs_ws (a : List Char) (h : a.all isHs = true) :
    a.all isWs = true := by
  rw [List.all_eq_true] at h ⊢
  exact fun c hc => hs_imp_ws c (h c hc)

/-! ### The block pattern on the standalone-delimiter layout -/

theorem splitAtDollar_append (u z : List Char) (h : '$' ∉ u) :
    splitAtDollar (u ++ '$' :: z) = some (u, z) := by
  induction u with
  | nil => simp [splitAtDollar]
  | cons c u' ih =>
    have hc : ¬(c = '$') := fun hh => h (hh ▸ List.mem_cons_self _ _)
    have hu' : '$' ∉ u' := fun hh => h (List.mem_cons_of_mem _ hh)
    rw [List.cons_append, splitAtDollar, if_neg (by simp [hc]), ih hu']
    rfl

theorem firstLineOk_spec (body : List Char) (h : firstLineOk body = true) :
    ∃ c q, body.dropWhile isHs = c :: q ∧ isWs c = false ∧ c ∈ body := by
  rw [firstLineOk] at h
  cases hd : body.dropWhile isHs with
  | nil => rw [hd] at h; exact absurd h (by simp)
  | cons c q =>
    rw [hd] at h
    refine ⟨c, q, rfl, by simpa using h, ?_⟩
    have hsub : (body.dropWhile isHs).Sublist body := List.dropWhile_sublist _
    exact hsub.subset (by rw [hd]; exact List.mem_cons_self _ _)

theorem body_rev_drop_ne (body : List Char) (h : firstLineOk body = true) :
    body.reverse.dropWhile isWs ≠ [] := by
  obtain ⟨c, q, hd, hws, hmem⟩ := firstLineOk_spec body h
  intro hnil
  have hall := dropWhile_nil_all body.reverse hnil
  have hc : isWs c = true :=
    List.all_eq_true.mp hall c (List.mem_reverse.mpr hmem)
  rw [hc] at hws
  exact absurd hws (by simp)

theorem blkLookahead_block (h2 body h3 : List Char) (hh2 : h2.all isHs = true)
    (hfl : firstLineOk body = true) (hnd : '$' ∉ body) :
    blkLookahead (h2 ++ '\n' :: (body ++ '\n' :: h3)) = true := by
  obtain ⟨c, q, hd, hws, hmem⟩ := firstLineOk_spec body hfl
  have hline : blkLookaheadLine (h2 ++ '\n' :: (body ++ '\n' :: h3)) = true := by
    rw [blkLookaheadLine, dropWhile_append_all h2 _ hh2,
      List.dropWhile_cons_of_neg (by decide)]
    dsimp only
    have hdropt : (body ++ '\n' :: h3).dropWhile isHs = c :: (q ++ '\n' :: h3) := by
      rw [dropWhile_append_pos body _ (by rw [hd]; simp), hd]
      rfl
    rw [lineStartOk, hdropt]
    dsimp only
    have hcd : ¬(c = '$') := fun hh => hnd (hh ▸ hmem)
    simp [hws, hcd]
  cases h2 with
  | nil =>
    rw [List.nil_append] at hline ⊢
    rw [blkLookahead, hline]
    simp
  | cons c0 h2' =>
    rw [List.cons_append] at hline ⊢
    rw [blkLookahead, hline]
    simp

theorem trailNL_block (t h3 : List Char) (ht : t.all isHs = true)
    (hh3 : h3.all isHs = true) : trailNL (t ++ '\n' :: h3) = true := by
  rw [trailNL, dropWhile_append_all t _ ht,
    List.dropWhile_cons_of_neg (by decide)]
  dsimp only
  simp [hh3]

theorem trailOk_block (t h3 : List Char) (ht : t.all isHs = true)
    (hh3 : h3.all isHs = true) : trailOk (t ++ '\n' :: h3) = true := by
  have hnl := trailNL_block t h3 ht hh3
  cases t with
  | nil =>
    rw [List.nil_append] at hnl ⊢
    rw [trailOk]
    exact hnl
  | cons c0 t' =>
    rw [List.cons_append] at hnl ⊢
    rw [trailOk]
    exact hnl

/-- The reverse of the interior of a standalone-layout block span, grouped
for whitespace trimming. -/
theorem interior_reverse (h2 body h3 : List Char) :
    (h2 ++ '\n' :: (body ++ '\n' :: h3)).reverse =
      h3.reverse ++ '\n' :: (body.reverse ++ '\n' :: h2.reverse) := by
  simp

theorem rstripWs_block (h2 body h3 : List Char) (hh3 : h3.all isHs = true)
    (hfl : firstLineOk body = true) :
    rstripWs (h2 ++ '\n' :: (body ++ '\n' :: h3)) =
      h2 ++ '\n' :: rstripWs body := by
  have hne := body_rev_drop_ne body hfl
  rw [rstripWs, interior_reverse,
    dropWhile_append_all h3.reverse _
      (by rw [List.all_reverse]; exact all_hs_ws h3 hh3),
    List.dropWhile_cons_of_pos (by decide),
    dropWhile_append_pos body.reverse _ hne]
  rw [rstripWs]
  simp

theorem wsTail_block (h2 body h3 : List Char) (hh3 : h3.all isHs = true)
    (hfl : firstLineOk body = true) :
    wsTail (h2 ++ '\n' :: (body ++ '\n' :: h3)) =
      (body.reverse.takeWhile isWs).reverse ++ '\n' :: h3 := by
  have hne := body_rev_drop_ne body hfl
  rw [wsTail, interior_reverse,
    takeWhile_append_all h3.reverse _
      (by rw [List.all_reverse]; exact all_hs_ws h3 hh3),
    List.takeWhile_cons_of_pos (by decide),
    takeWhile_append_pos body.reverse _ hne]
  simp

theorem rstripWs_ne_nil (body : List Char) (hfl : firstLineOk body = true) :
    rstripWs body ≠ [] := by
  have hne := body_rev_drop_ne body hfl
  rw [rstripWs]
  intro hh
  exact hne (by simpa using hh)

theorem tryBlock_block (h2 body h3 h4 : List Char)
    (hh2 : h2.all isHs = true) (hh3 : h3.all isHs = true)
    (hnd : '$' ∉ body) (hfl : firstLineOk body = true)
    (hll : lastLineOk body = true) :
    tryBlock ((h2 ++ '\n' :: (body ++ '\n' :: h3)) ++ '$' :: '$' :: h4) =
      some (h2 ++ '\n' :: (body ++ '\n' :: h3),
        h2 ++ '\n' :: rstripWs body, h4) := by
  have hnu : '$' ∉ h2 ++ '\n' :: (body ++ '\n' :: h3) := by
    intro hmem
    rcases List.mem_append.mp hmem with hh | hh
    · exact all_hs_no_dollar h2 hh2 hh
    · rcases List.mem_cons.mp hh with hh' | hh'
      · exact absurd hh' (by decide)
      · rcases List.mem_append.mp hh' with hh'' | hh''
        · exact hnd hh''
        · rcases List.mem_cons.mp hh'' with hh3' | hh3'
          · exact absurd hh3' (by decide)
          · exact all_hs_no_dollar h3 hh3 hh3'
  rw [tryBlock, splitAtDollar_append _ _ hnu]
  dsimp only
  rw [if_pos]
  · rw [rstripWs_block h2 body h3 hh3 hfl]
  · rw [blkLookahead_block h2 body h3 hh2 hfl hnd]
    rw [wsTail_block h2 body h3 hh3 hfl]
    rw [trailOk_block _ _
      (by rw [lastLineOk] at hll; rw [List.all_reverse]; exact hll) hh3]
    rw [rstripWs_block h2 body h3 hh3 hfl]
    have hemp : (h2 ++ '\n' :: rstripWs body).isEmpty = false := by
      cases h2 <;> simp [List.isEmpty]
    rw [hemp]
    rfl

theorem litApp_litApp (a b : List Char) (ps : List Piece) :
    litApp a (litApp b ps) = litApp (a ++ b) ps := by
  cases a with
  | nil => rw [litApp_nil_left, List.nil_append]
  | cons a0 a' =>
    cases b with
    | nil => rw [litApp_nil_left, List.append_nil]
    | cons b0 b' =>
      cases ps with
      | nil => simp [litApp, litOf]
      | cons p t => cases p <;> simp [litApp]

theorem tryInline_dollar (x : List Char) : tryInline ('$' :: x) = none := by
  rw [tryInline, if_neg (by decide)]

theorem prevOkBlock_start (a : List Char) (ha : a.all isHs = true) :
    prevOkBlock (lastPrev none a) = true := by
  rcases lastPrev_spec a none with h | ⟨c, hc, h⟩
  · rw [h]; rfl
  · rw [h, prevOkBlock]
    simp [hs_ne_backslash c (List.all_eq_true.mp ha c hc)]

theorem prevOkInline_start (a : List Char) (ha : a.all isHs = true) :
    prevOkInline (lastPrev none a) = true := by
  rcases lastPrev_spec a none with h | ⟨c, hc, h⟩
  · rw [h]; rfl
  · rw [h, prevOkInline]
    have hh := List.all_eq_true.mp ha c hc
    simp [hs_ne_backslash c hh, hs_ne_dollar c hh]

theorem prevOkInline_after_nl (h3 : List Char) (hh3 : h3.all isHs = true) :
    prevOkInline (lastPrev (some '\n') h3) = true := by
  rcases lastPrev_spec h3 (some '\n') with h | ⟨c, hc, h⟩
  · rw [h]; rfl
  · rw [h, prevOkInline]
    have hh := List.all_eq_true.mp hh3 c hc
    simp [hs_ne_backslash c hh, hs_ne_dollar c hh]

/-- The block pass on a document whose only markers form one block span in
the standalone-delimiter layout: leading prose-free horizontal whitespace,
`$$` closing its line, formula lines, and `$$` on its own closing line. -/
theorem scanBlock_standalone (h1 h2 body h3 h4 : List Char)
    (hh1 : h1.all isHs = true) (hh2 : h2.all isHs = true)
    (hh3 : h3.all isHs = true) (hh4 : h4.all isHs = true)
    (hnd : '$' ∉ body) (hfl : firstLineOk body = true)
    (hll : lastLineOk body = true) :
    scanBlock none
      (h1 ++ '$' :: '$' ::
        ((h2 ++ '\n' :: (body ++ '\n' :: h3)) ++ '$' :: '$' :: h4)) =
    litApp h1
      (Piece.math
        ('$' :: '$' :: ((h2 ++ '\n' :: (body ++ '\n' :: h3)) ++ ['$', '$']))
        (h2 ++ '\n' :: rstripWs body) :: litOf h4) := by
  rw [scanBlock_append_nodollar h1 none _ (all_hs_no_dollar h1 hh1)]
  have hopen : tryBlockOpen
      ('$' :: ((h2 ++ '\n' :: (body ++ '\n' :: h3)) ++ '$' :: '$' :: h4)) =
      some (h2 ++ '\n' :: (body ++ '\n' :: h3),
        h2 ++ '\n' :: rstripWs body, h4) := by
    rw [tryBlockOpen, if_pos (by decide)]
    exact tryBlock_block h2 body h3 h4 hh2 hh3 hnd hfl hll
  rw [scanBlock_cons_match (lastPrev none h1) _ _ _ _
    (prevOkBlock_start h1 hh1) hopen]
  rw [scanBlock_nodollar (some '$') h4 (all_hs_no_dollar h4 hh4)]

/-- The inline pass matches nothing in a standalone-layout block document:
each of the four markers is rejected (second of a pair, or immediately
followed by a marker). -/
theorem scanInline_standalone (h1 h2 body h3 h4 : List Char)
    (hh1 : h1.all isHs = true) (hh3 : h3.all isHs = true)
    (hh4 : h4.all isHs = true) (hnd : '$' ∉ body) (hnd2 : '$' ∉ h2) :
    scanInline none
      (h1 ++ '$' :: '$' ::
        ((h2 ++ '\n' :: (body ++ '\n' :: h3)) ++ '$' :: '$' :: h4)) =
    litOf (h1 ++ '$' :: '$' ::
        ((h2 ++ '\n' :: (body ++ '\n' :: h3)) ++ '$' :: '$' :: h4)) := by
  have hnu : '$' ∉ h2 ++ '\n' :: (body ++ '\n' :: h3) := by
    intro hmem
    rcases List.mem_append.mp hmem with hh | hh
    · exact hnd2 hh
    · rcases List.mem_cons.mp hh with hh' | hh'
      · exact absurd hh' (by decide)
      · rcases List.mem_append.mp hh' with hh'' | hh''
        · exact hnd hh''
        · rcases List.mem_cons.mp hh'' with hh3' | hh3'
          · exact absurd hh3' (by decide)
          · exact hs_ne_dollar _ (List.all_eq_true.mp hh3 _ hh3') rfl
  rw [scanInline_append_nodollar h1 none _ (all_hs_no_dollar h1 hh1)]
  rw [scanInline_cons_fail (lastPrev none h1) _
    (prevOkInline_start h1 hh1) (tryInline_dollar _)]
  rw [scanInline_cons_lit (some '$') '$' _ (by decide)]
  rw [scanInline_append_nodollar _ (some '$') _ hnu]
  have hp2 : lastPrev (some '$') (h2 ++ '\n' :: (body ++ '\n' :: h3)) =
      lastPrev (some '\n') h3 := by
    have hgrp : h2 ++ '\n' :: (body ++ '\n' :: h3) =
        (h2 ++ '\n' :: body) ++ '\n' :: h3 := by simp
    rw [hgrp, lastPrev_append]
    rfl
  rw [hp2]
  rw [scanInline_cons_fail (lastPrev (some '\n') h3) _
    (prevOkInline_after_nl h3 hh3) (tryInline_dollar _)]
  rw [scanInline_cons_lit (some '$') '$' _ (by decide)]
  rw [scanInline_nodollar (some '$') h4 (all_hs_no_dollar h4 hh4)]
  rw [← litApp_nil_right h4, litApp_cons, litApp_cons, litApp_litApp,
    litApp_cons, litApp_cons, litApp_litApp, litApp_nil_right]
  simp

/-! ### Pipeline-level helpers -/

theorem render_unchanged (r : Bool → List Char → Option (List Char))
    (d : List Char) (h1 : scanInline none d = litOf d)
    (h2 : scanBlock none d = litOf d) : render_katex r d = some d := by
  unfold render_katex render_katex_aux inline_math_re display_math_re
  rw [h1, assemble_litOf]
  dsimp only
  rw [h2, assemble_litOf]

theorem assemble_single_span (r : List Char → Option (List Char))
    (a o m b h : List Char) (hr : r m = some h) :
    assemble r (litOf a ++ Piece.math o m :: litOf b) = some (a ++ h ++ b) := by
  cases a <;> cases b <;> simp [litOf, assemble, hr]

theorem flat_single_span (a o m b : List Char) :
    flat (litOf a ++ Piece.math o m :: litOf b) = a ++ o ++ b := by
  cases a <;> cases b <;> simp [litOf, flat]

/-! ### The claims -/

/-- Claim C10: the assembler's copy-and-splice step is always well defined:
each scanning pass decomposes the document into an ordered sequence of
literal runs and whole matched regions whose concatenation is exactly the
document, so the cursor of `render_katex_aux` always lands on the next
match's start, every slice is in bounds and on character boundaries, and
every byte of the input is accounted for exactly once. -/
theorem katex_C10 (prev : Option Char) (d : List Char) :
    flat (scanInline prev d) = d ∧ flat (scanBlock prev d) = d :=
  ⟨flat_scanInline prev d, flat_scanBlock prev d⟩

/-- Claim C2: a document that contains no `$` marker at all is returned
unchanged by `render_katex`, whatever the rendering engine does. -/
theorem katex_C2 (r : Bool → List Char → Option (List Char))
    (d : List Char) (h : '$' ∉ d) : render_katex r d = some d :=
  render_unchanged r d (scanInline_nodollar none d h)
    (scanBlock_nodollar none d h)

/-- Witness for C2 at the concrete marker-free document "hi". -/
theorem katex_C2_witness :
    render_katex (fun _ m => some m) ['h', 'i'] = some ['h', 'i'] :=
  katex_C2 (fun _ m => some m) ['h', 'i'] (by decide)

/-- Claim C3: the price-like documents "$50$60" and "$50 $60" are returned
unchanged: the closing-marker lookahead (no digit or marker after the
closing `$`) rejects the first, and the closing-marker lookbehind (no
whitespace before the closing `$`) rejects the second, so two adjacent
marker-delimited numeric tokens are never read as one formula. -/
theorem katex_C3 (r : Bool → List Char → Option (List Char)) :
    render_katex r ['$', '5', '0', '$', '6', '0'] =
      some ['$', '5', '0', '$', '6', '0'] ∧
    render_katex r ['$', '5', '0', ' ', '$', '6', '0'] =
      some ['$', '5', '0', ' ', '$', '6', '0'] :=
  ⟨render_unchanged r _ (by decide) (by decide),
   render_unchanged r _ (by decide) (by decide)⟩

/-- Claim C6: a backslash immediately before a marker suppresses matching:
both "\$F = ma$" (escaped opening marker) and "$F = ma\$" (escaped closing
marker) are returned unchanged. -/
theorem katex_C6 (r : Bool → List Char → Option (List Char)) :
    render_katex r ['\\', '$', 'F', ' ', '=', ' ', 'm', 'a', '$'] =
      some ['\\', '$', 'F', ' ', '=', ' ', 'm', 'a', '$'] ∧
    render_katex r ['$', 'F', ' ', '=', ' ', 'm', 'a', '\\', '$'] =
      some ['$', 'F', ' ', '=', ' ', 'm', 'a', '\\', '$'] :=
  ⟨render_unchanged r _ (by decide) (by decide),
   render_unchanged r _ (by decide) (by decide)⟩

/-- Claim C8: the pipeline is exactly the sequential composition of the two
passes: `render_katex` equals the inline (single-marker) scan-and-substitute
pass over the original text, followed by the block (double-marker)
scan-and-substitute pass over the inline pass's output. -/
theorem katex_C8 (r : Bool → List Char → Option (List Char)) (d : List Char) :
    render_katex r d = (inlinePass r d).bind (blockPass r) := by
  unfold render_katex render_katex_aux inline_math_re display_math_re
    inlinePass blockPass
  cases assemble (r false) (scanInline none d) <;> rfl

/-- Claim C1: `render_katex` fails exactly when the rendering engine fails
on the formula of some matched span — either a span matched by the inline
pass over the original document, or (the inline pass having succeeded) a
span matched by the block pass over the intermediate text.  There is no
retry and no partial output: the failure propagates unchanged to the
pipeline's result; when every matched span renders, the pipeline returns
the fully substituted text. -/
theorem katex_C1 (r : Bool → List Char → Option (List Char)) (d : List Char) :
    render_katex r d = none ↔
      (∃ o m, Piece.math o m ∈ inline_math_re d ∧ r false m = none) ∨
      (∃ t, render_katex_aux inline_math_re false r d = some t ∧
        ∃ o m, Piece.math o m ∈ display_math_re t ∧ r true m = none) := by
  unfold render_katex
  cases hi : render_katex_aux inline_math_re false r d with
  | none =>
    simp only [true_iff]
    left
    unfold render_katex_aux inline_math_re at hi
    exact (assemble_eq_none_iff (r false) (scanInline none d)).mp hi
  | some t =>
    have hnofail : ¬∃ o m, Piece.math o m ∈ inline_math_re d ∧ r false m = none := by
      intro hex
      have : render_katex_aux inline_math_re false r d = none := by
        unfold render_katex_aux inline_math_re at *
        exact (assemble_eq_none_iff (r false) (scanInline none d)).mpr hex
      rw [hi] at this
      exact absurd this (by simp)
    dsimp only
    constructor
    · intro hb
      right
      refine ⟨t, rfl, ?_⟩
      unfold render_katex_aux display_math_re at hb
      exact (assemble_eq_none_iff (r true) (scanBlock none t)).mp hb
    · intro hr
      rcases hr with hl | ⟨t', ht', hex⟩
      · exact absurd hl hnofail
      · have htt : t' = t := by
          injection ht' with hh
          exact hh.symm
        subst htt
        unfold render_katex_aux display_math_re
        exact (assemble_eq_none_iff (r true) (scanBlock none t')).mpr hex

/-- Claim C4 counterexample: the block pass does match a span whose opening
`$$` is immediately preceded by a third `$`.  On "$$$x$$" it matches the
span "$$x$$" (formula "x") starting at offset 1, right after the leading
literal `$`: the opening condition of `display_math_re` only excludes a
preceding backslash, not a preceding marker. -/
theorem katex_C4_counterexample :
    scanBlock none ['$', '$', '$', 'x', '$', '$'] =
      [Piece.lit ['$'], Piece.math ['$', '$', 'x', '$', '$'] ['x']] := by
  decide

/-- Claim C4 as amended: a block span's opening `$$` need only not be
preceded by a backslash (a directly adjacent extra `$` does not disqualify
it), and the closing `$$` is the first marker pair after the interior with
no condition on its neighbours; in "$$$x$$" the block pass therefore
matches "$$x$$" with formula "x", and the pipeline substitutes it, keeping
the leading third `$` as literal text. -/
theorem katex_C4 (r : Bool → List Char → Option (List Char)) (mk : List Char)
    (h : r true ['x'] = some mk) :
    render_katex r ['$', '$', '$', 'x', '$', '$'] = some ('$' :: mk) := by
  unfold render_katex render_katex_aux inline_math_re display_math_re
  rw [show scanInline none ['$', '$', '$', 'x', '$', '$'] =
        litOf ['$', '$', '$', 'x', '$', '$'] from by decide,
    assemble_litOf]
  dsimp only
  rw [show scanBlock none ['$', '$', '$', 'x', '$', '$'] =
        [Piece.lit ['$'], Piece.math ['$', '$', 'x', '$', '$'] ['x']] from by
      decide]
  simp [assemble, h]

/-- Witness for the amended C4 with a unit rendering engine. -/
theorem katex_C4_witness :
    render_katex (fun _ _ => some ['R']) ['$', '$', '$', 'x', '$', '$'] =
      some ['$', 'R'] :=
  katex_C4 (fun _ _ => some ['R']) ['R'] rfl

/-- Claim C9: an inline span's formula text may contain a line break: on
"$a\nb$" the inline pass matches the whole document as one span and hands
the engine the multi-line interior "a\nb", newline included. -/
theorem katex_C9 (r : Bool → List Char → Option (List Char)) (h : List Char)
    (hr : r false ['a', '\n', 'b'] = some h) :
    scanInline none ['$', 'a', '\n', 'b', '$'] =
      [Piece.math ['$', 'a', '\n', 'b', '$'] ['a', '\n', 'b']] ∧
    render_katex_aux inline_math_re false r ['$', 'a', '\n', 'b', '$'] =
      some h := by
  refine ⟨by decide, ?_⟩
  unfold render_katex_aux inline_math_re
  rw [show scanInline none ['$', 'a', '\n', 'b', '$'] =
        [Piece.math ['$', 'a', '\n', 'b', '$'] ['a', '\n', 'b']] from by
      decide]
  simp [assemble, hr]

/-- Witness for C9 with a unit rendering engine. -/
theorem katex_C9_witness :
    render_katex_aux inline_math_re false (fun _ _ => some ['R'])
      ['$', 'a', '\n', 'b', '$'] = some ['R'] :=
  (katex_C9 (fun _ _ => some ['R']) ['R'] rfl).2

/-- Claim C7: when the document contains exactly one valid span — matched
either by the inline pass (and the substituted intermediate text contains
no block span) or, nothing being matched inline, by the block pass — the
text before the span's outer start and the text after its outer end appear
byte-identical in the output; only the delimited region is replaced. -/
theorem katex_C7 (r : Bool → List Char → Option (List Char))
    (d a o m b h : List Char)
    (hcase :
      (scanInline none d = litOf a ++ Piece.math o m :: litOf b ∧
        r false m = some h ∧
        scanBlock none (a ++ h ++ b) = litOf (a ++ h ++ b)) ∨
      (scanInline none d = litOf d ∧
        scanBlock none d = litOf a ++ Piece.math o m :: litOf b ∧
        r true m = some h)) :
    d = a ++ o ++ b ∧ render_katex r d = some (a ++ h ++ b) := by
  rcases hcase with ⟨h1, h2, h3⟩ | ⟨h1, h2, h3⟩
  · constructor
    · rw [← flat_scanInline none d, h1, flat_single_span]
    · unfold render_katex render_katex_aux inline_math_re display_math_re
      rw [h1, assemble_single_span (r false) a o m b h h2]
      dsimp only
      rw [h3, assemble_litOf]
  · constructor
    · rw [← flat_scanBlock none d, h2, flat_single_span]
    · unfold render_katex render_katex_aux inline_math_re display_math_re
      rw [h1, assemble_litOf]
      dsimp only
      rw [h2, assemble_single_span (r true) a o m b h h3]

/-- Witness for C7: the document "x$a$y" with a unit rendering engine. -/
theorem katex_C7_witness :
    ['x', '$', 'a', '$', 'y'] = ['x'] ++ ['$', 'a', '$'] ++ ['y'] ∧
    render_katex (fun _ _ => some ['R']) ['x', '$', 'a', '$', 'y'] =
      some (['x'] ++ ['R'] ++ ['y']) :=
  katex_C7 (fun _ _ => some ['R']) ['x', '$', 'a', '$', 'y']
    ['x'] ['$', 'a', '$'] ['a'] ['y'] ['R']
    (Or.inl ⟨by decide, rfl, by decide⟩)

/-- Claim C5: a document made of leading horizontal whitespace, a `$$`
closing its line, formula lines (no `$`; first and last line not blank),
and a closing `$$` alone on its own line — with arbitrary horizontal
whitespace around both delimiters — is matched as one block span: the
pipeline replaces the whole delimited region by the engine's markup and,
the markup being longer than the replaced region (as the external engine's
always is), the output is strictly longer than, and different from, the
input.  The formula handed to the engine is the interior trimmed of its
trailing blank padding. -/
theorem katex_C5 (r : Bool → List Char → Option (List Char))
    (h1 h2 h3 h4 body mk : List Char)
    (hh1 : h1.all isHs = true) (hh2 : h2.all isHs = true)
    (hh3 : h3.all isHs = true) (hh4 : h4.all isHs = true)
    (hnd : '$' ∉ body) (hfl : firstLineOk body = true)
    (hll : lastLineOk body = true)
    (hr : r true (h2 ++ '\n' :: rstripWs body) = some mk)
    (hlen : 6 + h2.length + body.length + h3.length < mk.length) :
    render_katex r
      (h1 ++ '$' :: '$' ::
        ((h2 ++ '\n' :: (body ++ '\n' :: h3)) ++ '$' :: '$' :: h4)) =
      some (h1 ++ mk ++ h4) ∧
    (h1 ++ '$' :: '$' ::
        ((h2 ++ '\n' :: (body ++ '\n' :: h3)) ++ '$' :: '$' :: h4)).length <
      (h1 ++ mk ++ h4).length ∧
    h1 ++ mk ++ h4 ≠
      h1 ++ '$' :: '$' ::
        ((h2 ++ '\n' :: (body ++ '\n' :: h3)) ++ '$' :: '$' :: h4) := by
  have hrender : render_katex r
      (h1 ++ '$' :: '$' ::
        ((h2 ++ '\n' :: (body ++ '\n' :: h3)) ++ '$' :: '$' :: h4)) =
      some (h1 ++ mk ++ h4) := by
    unfold render_katex render_katex_aux inline_math_re display_math_re
    rw [scanInline_standalone h1 h2 body h3 h4 hh1 hh3 hh4 hnd
      (all_hs_no_dollar h2 hh2), assemble_litOf]
    dsimp only
    rw [scanBlock_standalone h1 h2 body h3 h4 hh1 hh2 hh3 hh4 hnd hfl hll,
      assemble_litApp, assemble, hr]
    dsimp only
    rw [assemble_litOf]
    simp
  have hlength : (h1 ++ '$' :: '$' ::
      ((h2 ++ '\n' :: (body ++ '\n' :: h3)) ++ '$' :: '$' :: h4)).length <
      (h1 ++ mk ++ h4).length := by
    simp only [List.length_append, List.length_cons]
    omega
  refine ⟨hrender, hlength, ?_⟩
  intro heq
  have := congrArg List.length heq
  simp only [List.length_append, List.length_cons] at this
  omega

/-- Witness for C5: the minimal standalone-layout document "$$\nx\n$$" with
an engine whose markup is eight characters long. -/
theorem katex_C5_witness :
    render_katex (fun _ _ => some ['R', 'R', 'R', 'R', 'R', 'R', 'R', 'R'])
      ([] ++ '$' :: '$' ::
        (([] ++ '\n' :: (['x'] ++ '\n' :: [])) ++ '$' :: '$' :: [])) =
      some ([] ++ ['R', 'R', 'R', 'R', 'R', 'R', 'R', 'R'] ++ []) ∧
    ([] ++ '$' :: '$' ::
        (([] ++ '\n' :: (['x'] ++ '\n' :: [])) ++ '$' :: '$' :: [])).length <
      ([] ++ ['R', 'R', 'R', 'R', 'R', 'R', 'R', 'R'] ++ []).length ∧
    [] ++ ['R', 'R', 'R', 'R', 'R', 'R', 'R', 'R'] ++ [] ≠
      [] ++ '$' :: '$' ::
        (([] ++ '\n' :: (['x'] ++ '\n' :: [])) ++ '$' :: '$' :: []) :=
  katex_C5 (fun _ _ => some ['R', 'R', 'R', 'R', 'R', 'R', 'R', 'R'])
    [] [] [] [] ['x'] ['R', 'R', 'R', 'R', 'R', 'R', 'R', 'R']
    (by decide) (by decide) (by decide) (by decide) (by decide) (by decide)
    (by decide) rfl (by decide)

end KatexSpec
